import Mathlib

/-!
Verification development for the whale-query relationship-graph builder
(source file src/app/lib/solscan.ts).

The TypeScript module is shallowly embedded here:
- raw ledger records, API parameters and responses become Lean structures;
- the external ledger endpoint becomes an oracle of type Fetcher;
- the process-global mutable state (visited set, processed-transaction set,
  API call counter) becomes an explicit St value threaded through the
  functions, extended with an event trace recording every external call and
  every inter-call delay, so that rate-limiting and call-count properties
  are statable;
- JavaScript floating-point amounts are modelled as rationals;
- Map<string, T[]> (which preserves insertion order) is modelled as an
  association list.
-/

namespace WhaleQuery

/-- Direction of a transfer query, the flow field of the API parameters
(solscan.ts APIParams.flow : 'in' | 'out'). -/
inductive Flow where
  | inflow
  | outflow
deriving DecidableEq, Repr

/-- A raw ledger record as returned by the transfer endpoint
(solscan.ts interface SolscanTransaction, lines 54-60).
The raw amount is a rational standing in for the JavaScript number. -/
structure SolscanTransaction where
  from_address : String
  to_address : String
  amount : ℚ
  token_decimals : Nat
  block_time : Nat
deriving DecidableEq, Repr

/-- A transfer-endpoint response body (solscan.ts interface SolscanResponse,
lines 45-48).  The Array.isArray check of the source is always true in this
typed model. -/
structure SolscanResponse where
  success : Bool
  data : List SolscanTransaction
deriving DecidableEq, Repr

/-- Parameters of one request to the transfer endpoint (solscan.ts interface
APIParams, lines 66-74).  The activity_type and token fields, which are the
same environment-derived constants on every call the program makes, are
omitted; address, amount, flow, page and page_size are the fields that vary
or matter to the claims. -/
structure APIParams where
  address : String
  amount : ℚ
  flow : Flow
  page : Nat
  page_size : Nat
deriving DecidableEq, Repr

/-- The external ledger endpoint, as an oracle: none models a transport error
(axios rejection), some models a received response body. -/
def Fetcher : Type := APIParams → Option SolscanResponse

/-- One observable external event: a fixed-delay sleep (delay(ms), solscan.ts
line 95) or an HTTP request to the transfer endpoint. -/
inductive Event where
  | delayEv (ms : Nat)
  | hit (params : APIParams)
deriving DecidableEq, Repr

/-- The mutable process state of solscan.ts made explicit: the visited-address
set and processed-transaction set threaded through getRelatedTransactions,
the global apiCallCount (line 88), and the trace of external events. -/
structure St where
  visited : List String
  processedTx : List String
  callCount : Nat
  trace : List Event
deriving DecidableEq, Repr

/-- Fresh state at the start of a top-level traversal: empty sets, counter
reset to 0 (solscan.ts line 379), empty trace. -/
def initSt : St := ⟨[], [], 0, []⟩

/-- A normalized transfer edge (solscan.ts interface Transaction, lines
33-39).  The source's field name is to, a Lean keyword, so it is rendered
toAddr here.  The type field is optional in the source
('in' | 'out' | absent). -/
structure Transaction where
  toAddr : String
  amount : ℚ
  timestamp : Nat
  formattedTime : String
  type : Option Flow
deriving DecidableEq, Repr

/-- Stand-in for new Date(block_time * 1000).toLocaleString() (solscan.ts
lines 150, 278, 325): the locale rendering is abstracted as a fixed
function of the block time; no claim depends on its exact text. -/
def formatLocale (t : Nat) : String := toString t

/-- The adjacency graph Map<string, Transaction[]>, as an association list in
insertion order. -/
def Graph : Type := List (String × List Transaction)

instance : DecidableEq Graph := by
  unfold Graph
  infer_instance

/-- Append edges to the entry of a key, creating the entry at the end when
absent — the idiom `if (!m.has(k)) m.set(k, []); m.get(k)?.push(...es)`
used throughout solscan.ts. -/
def gPush : Graph → String → List Transaction → Graph
  | [], k, es => [(k, es)]
  | (k1, es1) :: rest, k, es =>
    if k1 = k then (k1, es1 ++ es) :: rest
    else (k1, es1) :: gPush rest k es

/-- Merge a source graph into an accumulator by pushing each entry's edge
list — the merge loops of solscan.ts lines 169-176, 294-299 and 341-346. -/
def mergeInto (acc : Graph) (src : Graph) : Graph :=
  src.foldl (fun g kes => gPush g kes.1 kes.2) acc

/-- All (origin, edge) pairs of a graph, in order. -/
def allPairs : Graph → List (String × Transaction)
  | [] => []
  | (k, es) :: rest => es.map (fun e => (k, e)) ++ allPairs rest

/-- Total number of edges of a graph. -/
def edgeCount (g : Graph) : Nat := (allPairs g).length

/-- The (fromAddress, toAddress, timestampUnix) triple of an edge at its
origin key. -/
def tripleOf (p : String × Transaction) : String × String × Nat :=
  (p.1, p.2.toAddr, p.2.timestamp)

/-- The transaction-key string of a triple, as built by the template
literals of solscan.ts lines 266 and 313. -/
def tripleKeyStr (t : String × String × Nat) : String :=
  t.1 ++ "-" ++ t.2.1 ++ "-" ++ toString t.2.2

/-- The transaction-key string of an (origin, edge) pair. -/
def edgeKey (p : String × Transaction) : String := tripleKeyStr (tripleOf p)

/-- The (address, flow) pairs of the endpoint hits of a trace. -/
def hitPairs : List Event → List (String × Flow)
  | [] => []
  | Event.hit p :: rest => (p.address, p.flow) :: hitPairs rest
  | Event.delayEv _ :: rest => hitPairs rest

/-- Helper for paced: the Boolean argument records whether the previous
event was a delay. -/
def pacedFrom : Bool → List Event → Bool
  | _, [] => true
  | prev, Event.hit _ :: rest => prev && pacedFrom false rest
  | _, Event.delayEv _ :: rest => pacedFrom true rest

/-- A trace is paced when every endpoint hit is immediately preceded by a
delay event. -/
def paced (l : List Event) : Bool := pacedFrom false l

/-- The fixed inter-call delay in milliseconds (solscan.ts line 89). -/
def API_DELAY : Nat := 100

/-- The rate-limited wrapper callSolscanAPI (solscan.ts lines 102-112):
increments the global call counter, sleeps for the fixed delay, then issues
the request. -/
def callSolscanAPI (fetch : Fetcher) (params : APIParams) (st : St) :
    Option SolscanResponse × St :=
  let st1 : St :=
    { st with
      callCount := st.callCount + 1
      trace := st.trace ++ [Event.delayEv API_DELAY, Event.hit params] }
  (fetch params, st1)

/-- The parameters of the inbound query issued by getRelatedTransactions
(solscan.ts lines 235-243). -/
def inQueryParams (address : String) (minAmount : ℚ) : APIParams :=
  ⟨address, minAmount, Flow.inflow, 1, 10⟩

/-- The parameters of the outbound query issued by getRelatedTransactions
(solscan.ts lines 249-257). -/
def outQueryParams (address : String) (minAmount : ℚ) : APIParams :=
  ⟨address, minAmount, Flow.outflow, 1, 10⟩

/-- Processing of the inbound response (solscan.ts lines 260-304): consult
only the first record, re-check the normalized amount against minAmount,
deduplicate on the transaction-key string, append the edge
counterparty -> {to: address, type: in}, and recurse into the counterparty
only when depth < maxDepth - 1.  The recursive call is passed in as rec0. -/
def processIn (rec0 : String → St → Graph × St) (address : String)
    (minAmount : ℚ) (depth maxDepth : Nat) (resp : SolscanResponse)
    (g : Graph) (st : St) : Graph × St :=
  if resp.success then
    match resp.data with
    | [] => (g, st)
    | inTx :: _ =>
      let amount := inTx.amount / (10 : ℚ) ^ inTx.token_decimals
      if minAmount ≤ amount then
        let fromAddress := inTx.from_address
        let txKey := fromAddress ++ "-" ++ address ++ "-" ++ toString inTx.block_time
        if txKey ∈ st.processedTx then (g, st)
        else
          let st1 : St := { st with processedTx := st.processedTx ++ [txKey] }
          let g1 := gPush g fromAddress
            [⟨address, amount, inTx.block_time, formatLocale inTx.block_time,
              some Flow.inflow⟩]
          if depth < maxDepth - 1 then
            let rs := rec0 fromAddress st1
            (mergeInto g1 rs.1, rs.2)
          else (g1, st1)
      else (g, st)
  else (g, st)

/-- Processing of the outbound response (solscan.ts lines 307-351),
symmetric to processIn: edge address -> {to: counterparty, type: out},
transaction key (address, counterparty, block_time). -/
def processOut (rec0 : String → St → Graph × St) (address : String)
    (minAmount : ℚ) (depth maxDepth : Nat) (resp : SolscanResponse)
    (g : Graph) (st : St) : Graph × St :=
  if resp.success then
    match resp.data with
    | [] => (g, st)
    | outTx :: _ =>
      let amount := outTx.amount / (10 : ℚ) ^ outTx.token_decimals
      if minAmount ≤ amount then
        let toAddress := outTx.to_address
        let txKey := address ++ "-" ++ toAddress ++ "-" ++ toString outTx.block_time
        if txKey ∈ st.processedTx then (g, st)
        else
          let st1 : St := { st with processedTx := st.processedTx ++ [txKey] }
          let g1 := gPush g address
            [⟨toAddress, amount, outTx.block_time, formatLocale outTx.block_time,
              some Flow.outflow⟩]
          if depth < maxDepth - 1 then
            let rs := rec0 toAddress st1
            (mergeInto g1 rs.1, rs.2)
          else (g1, st1)
      else (g, st)
  else (g, st)

/-- The recursive explorer getRelatedTransactions (solscan.ts lines 206-364),
written with an explicit structural fuel so that the recursion is primitive.
The guards are exactly the source's: visited check, mark visited, depth
check, two sequential wrapped calls with an extra delay between them (line
245), then inbound and outbound processing.  The source's try/catch wraps
both calls and both processing blocks, so a transport error (fetch = none)
on either call makes the whole node return the graph built so far — which
is empty, because both calls precede all processing.  The fuel-zero inner
branch is unreachable when fuel = maxDepth - depth, which is how
getRelatedTransactions instantiates it: the branch is only reachable with
maxDepth - depth = 0, and then the depth guard has already returned; every
recursive call is guarded by depth < maxDepth - 1 and so preserves
fuel = maxDepth - depth. -/
def exploreF (fetch : Fetcher) (minAmount : ℚ) (fuel : Nat) (address : String)
    (depth maxDepth : Nat) (st : St) : Graph × St :=
  if address ∈ st.visited then ([], st)
  else
    let stv : St := { st with visited := st.visited ++ [address] }
    if maxDepth ≤ depth then ([], stv)
    else
      match fuel with
      | 0 => ([], stv)
      | fuel1 + 1 =>
        let c1 := callSolscanAPI fetch (inQueryParams address minAmount) stv
        match c1.1 with
        | none => ([], c1.2)
        | some inResp =>
          let std : St := { c1.2 with trace := c1.2.trace ++ [Event.delayEv API_DELAY] }
          let c2 := callSolscanAPI fetch (outQueryParams address minAmount) std
          match c2.1 with
          | none => ([], c2.2)
          | some outResp =>
            let recur := fun a st1 =>
              exploreF fetch minAmount fuel1 a (depth + 1) maxDepth st1
            let r1 := processIn recur address minAmount depth maxDepth inResp [] c2.2
            processOut recur address minAmount depth maxDepth outResp r1.1 r1.2

/-- getRelatedTransactions (solscan.ts lines 206-364) with its state made
explicit; the fuel maxDepth - depth makes the embedding total (see
exploreF). -/
def getRelatedTransactions (fetch : Fetcher) (address : String)
    (minAmount : ℚ) (depth maxDepth : Nat) (st : St) : Graph × St :=
  exploreF fetch minAmount (maxDepth - depth) address depth maxDepth st

/-- A depth map: Map<string, number> in insertion order, with signed
depths. -/
def DepthMap : Type := List (String × Int)

instance : DecidableEq DepthMap := by
  unfold DepthMap
  infer_instance

/-- Lookup in a depth map. -/
def dmGet : DepthMap → String → Option Int
  | [], _ => none
  | (k1, v1) :: rest, k => if k1 = k then some v1 else dmGet rest k

/-- Membership test, Map.has. -/
def dmHas (dm : DepthMap) (k : String) : Bool := (dmGet dm k).isSome

/-- Map.set: update in place when present, append when absent. -/
def dmSet : DepthMap → String → Int → DepthMap
  | [], k, v => [(k, v)]
  | (k1, v1) :: rest, k, v =>
    if k1 = k then (k, v) :: rest else (k1, v1) :: dmSet rest k v

/-- One edge of the depth-assignment loop (solscan.ts lines 390-403): for an
edge of type 'in' stored at origin, assign the origin
(depth of edge.toAddr, defaulting to 0 when unassigned) + 1 if the origin is
unassigned; otherwise (type 'out' or absent) assign edge.toAddr
(depth of origin, defaulting to 0) - 1 if edge.toAddr is unassigned.  The
JavaScript (m.get(x) || 0) equals getD 0 here because an existing depth 0 is
falsy and also yields 0. -/
def depthPassEdge (origin : String) (dm : DepthMap) (e : Transaction) : DepthMap :=
  if e.type = some Flow.inflow then
    if dmHas dm origin then dm
    else dmSet dm origin ((dmGet dm e.toAddr).getD 0 + 1)
  else
    if dmHas dm e.toAddr then dm
    else dmSet dm e.toAddr ((dmGet dm origin).getD 0 - 1)

/-- One full pass of the depth-assignment loop over the graph's edge lists
(solscan.ts lines 389-404). -/
def depthPass (g : Graph) (dm : DepthMap) : DepthMap :=
  g.foldl (fun dm1 kes => kes.2.foldl (depthPassEdge kes.1) dm1) dm

/-- The depth classification performed by getAddressRelationGraph: the root
is assigned depth 0 (line 386), and the assignment loop is then run four
times — the source repeats the identical loop at lines 389-404, 425-440,
461-476 and 497-512. -/
def classifyDepths (g : Graph) (root : String) : DepthMap :=
  depthPass g (depthPass g (depthPass g (depthPass g (dmSet [] root 0))))

/-- getAddressRelationGraph (solscan.ts lines 372-538): reset the call
counter, run the traversal from depth 0 with maxDepth 2 and fresh visited
and processed-transaction sets, then classify depths.  The source's own
try/catch is dead code here because the embedded traversal is total. -/
def getAddressRelationGraph (fetch : Fetcher) (address : String)
    (minAmount : ℚ) : Graph × DepthMap × St :=
  let r := getRelatedTransactions fetch address minAmount 0 2 initSt
  (r.1, classifyDepths r.1 address, r.2)

/-- The parameters of the single query issued by getLatestTransaction
(solscan.ts lines 121-134): flow fixed to 'in', amount filter fixed to
0.5. -/
def latestQueryParams (address : String) : APIParams :=
  ⟨address, 1 / 2, Flow.inflow, 1, 10⟩

/-- getLatestTransaction (solscan.ts lines 117-161): one direct axios call
to the transfer endpoint — not through callSolscanAPI, so no counter
increment and no delay — taking only the first record and appending one
edge keyed by that record's from_address, with no type field and no local
amount check; any error yields the empty adjacency list. -/
def getLatestTransaction (fetch : Fetcher) (address : String) (st : St) :
    Graph × St :=
  let st1 : St := { st with trace := st.trace ++ [Event.hit (latestQueryParams address)] }
  match fetch (latestQueryParams address) with
  | none => ([], st1)
  | some resp =>
    if resp.success then
      match resp.data with
      | [] => ([], st1)
      | firstTx :: _ =>
        ([(firstTx.from_address,
           [⟨firstTx.to_address,
             firstTx.amount / (10 : ℚ) ^ firstTx.token_decimals,
             firstTx.block_time, formatLocale firstTx.block_time, none⟩])],
         st1)
    else ([], st1)

/-- mergeMaps (solscan.ts lines 166-179). -/
def mergeMaps (maps : List Graph) : Graph :=
  maps.foldl mergeInto []

/-- The per-address fetches of getTransactionGraph (solscan.ts lines
186-188); the concurrent Promise.all fan-out is sequentialized in the
model, which only affects the interleaving of trace events. -/
def gatherGraphs (fetch : Fetcher) : List String → St → List Graph × St
  | [], st => ([], st)
  | a :: rest, st =>
    let r := getLatestTransaction fetch a st
    let rs := gatherGraphs fetch rest r.2
    (r.1 :: rs.1, rs.2)

/-- getTransactionGraph (solscan.ts lines 184-194): fetch the shallow
single-hop graph of every seed address and merge; the catch branch is dead
because getLatestTransaction handles its own errors. -/
def getTransactionGraph (fetch : Fetcher) (addresses : List String)
    (st : St) : Graph × St :=
  let rs := gatherGraphs fetch addresses st
  (mergeMaps rs.1, rs.2)

end WhaleQuery

/-! ## Concrete inputs for scenario-style claims -/

namespace WhaleQuery

/-- Fetcher for the scenario of claim C1: root A has one qualifying outbound
transfer of 50 to B, B has one qualifying outbound transfer of 20 to C; C
itself would have a qualifying outbound transfer to D if it were ever
expanded. -/
def fetchC1 : Fetcher := fun p =>
  if p = inQueryParams "A" 10 then some ⟨true, []⟩
  else if p = outQueryParams "A" 10 then some ⟨true, [⟨"A", "B", 50, 0, 1000⟩]⟩
  else if p = inQueryParams "B" 10 then some ⟨true, []⟩
  else if p = outQueryParams "B" 10 then some ⟨true, [⟨"B", "C", 20, 0, 2000⟩]⟩
  else if p = outQueryParams "C" 10 then some ⟨true, [⟨"C", "D", 30, 0, 3000⟩]⟩
  else some ⟨true, []⟩

/-- [C1] Counterexample to the claim as stated: in scenario B (root A,
minAmount 10, maxDepth 2) the visited set on return is exactly A and B —
C is NOT in the visited set, because the explorer only recurses when
depth < maxDepth - 1, so no recursive call (which is the only thing that
marks an address visited) is ever issued for C. -/
theorem c1_counterexample :
    (getRelatedTransactions fetchC1 "A" 10 0 2 initSt).2.visited = ["A", "B"] ∧
    "C" ∉ (getRelatedTransactions fetchC1 "A" 10 0 2 initSt).2.visited := by
  with_unfolding_all decide

set_option maxRecDepth 10000 in
/-- [C1] Amended claim, proved: in the recursive explorer with minAmount 10
and maxDepth 2, where root A's only qualifying transfer is an outbound
transfer of 50 to B and B's only qualifying transfer is an outbound
transfer of 20 to C, the returned graph contains exactly the edges
A -> {to: B, amount: 50, type: Out} and B -> {to: C, amount: 20, type: Out};
C is not in the visited set (visited = {A, B}) and no Fetcher call was
issued for C (the trace holds exactly the two calls for A and the two for
B, each preceded by the fixed delay). -/
theorem c1_scenarioB :
    getRelatedTransactions fetchC1 "A" 10 0 2 initSt =
      ([("A", [⟨"B", 50, 1000, formatLocale 1000, some Flow.outflow⟩]),
        ("B", [⟨"C", 20, 2000, formatLocale 2000, some Flow.outflow⟩])],
       ⟨["A", "B"], ["A-B-1000", "B-C-2000"], 4,
        [Event.delayEv 100, Event.hit (inQueryParams "A" 10), Event.delayEv 100,
         Event.delayEv 100, Event.hit (outQueryParams "A" 10),
         Event.delayEv 100, Event.hit (inQueryParams "B" 10), Event.delayEv 100,
         Event.delayEv 100, Event.hit (outQueryParams "B" 10)]⟩) := by
  with_unfolding_all decide

/-- Fetcher for the counterexample of claim C2: the inbound query for A
fails with a transport error, while the outbound query for A would return
a qualifying transfer of 60 to B. -/
def fetchC2cx : Fetcher := fun p =>
  if p = inQueryParams "A" 10 then none
  else if p = outQueryParams "A" 10 then some ⟨true, [⟨"A", "B", 60, 0, 7⟩]⟩
  else none

set_option maxRecDepth 10000 in
/-- [C2] Counterexample to the claim as stated: when the inbound Fetcher
call for A errors, the outbound direction of A is NOT processed — the
outbound call is never even issued (the trace holds only the inbound hit)
and the returned graph is empty, although the outbound query would have
returned a qualifying transfer of 60 >= 10.  The source wraps both calls
and both processing blocks of a node in a single try/catch (solscan.ts
lines 232-361), so an error in either call discards the whole node's
contribution. -/
theorem c2_counterexample :
    getRelatedTransactions fetchC2cx "A" 10 0 2 initSt =
      ([], ⟨["A"], [], 1, [Event.delayEv 100, Event.hit (inQueryParams "A" 10)]⟩) ∧
    fetchC2cx (outQueryParams "A" 10) = some ⟨true, [⟨"A", "B", 60, 0, 7⟩]⟩ ∧
    (10 : ℚ) ≤ 60 / 10 ^ (0 : Nat) := by
  with_unfolding_all decide

/-- Graph for the counterexample of claim C3: a single In edge whose origin
X has no depth and whose reference node Y also has no depth when the edge
is processed. -/
def graphC3 : Graph := [("X", [⟨"Y", 1, 5, formatLocale 5, some Flow.inflow⟩])]

/-- [C3] Counterexample to the claim as stated: for an In edge at origin X
whose reference node Y was never assigned a depth, the classifier does NOT
leave X unset — the JavaScript (depthMap.get(to) || 0) defaults the missing
reference depth to 0, so X is assigned 0 + 1 = 1 while Y stays unassigned. -/
theorem c3_counterexample :
    classifyDepths graphC3 "R" = [("R", 0), ("X", 1)] ∧
    dmGet (classifyDepths graphC3 "R") "X" = some 1 ∧
    dmGet (classifyDepths graphC3 "R") "Y" = none := by
  with_unfolding_all decide

/-- Fetcher for the counterexample of claim C9: the endpoint returns a
transfer record for every query. -/
def fetchC9cx : Fetcher := fun _ => some ⟨true, [⟨"Z", "X", 77, 0, 9⟩]⟩

/-- [C9] Counterexample to the claim as stated: getLatestTransaction issues
an external call to the transfer endpoint directly (solscan.ts line 121),
not through the callSolscanAPI wrapper — the call appears in the trace but
the call counter stays 0 and no inter-call delay precedes the hit, even
though the query succeeds and produces an edge. -/
theorem c9_counterexample :
    (getLatestTransaction fetchC9cx "X" initSt).2.trace
        = [Event.hit (latestQueryParams "X")] ∧
    (getLatestTransaction fetchC9cx "X" initSt).2.callCount = 0 ∧
    paced (getLatestTransaction fetchC9cx "X" initSt).2.trace = false ∧
    (getLatestTransaction fetchC9cx "X" initSt).1 ≠ [] := by
  with_unfolding_all decide

/-- [C4] For every traversal, an invocation of the explorer at recursion
depth >= maxDepth issues no Fetcher calls at all: it checks the visited
set, marks the address visited when new, and returns an empty graph with
the trace, call counter and processed-transaction set unchanged. -/
theorem c4_depth_bound (fetch : Fetcher) (minAmount : ℚ) (fuel : Nat)
    (address : String) (depth maxDepth : Nat) (st : St)
    (h : maxDepth ≤ depth) :
    exploreF fetch minAmount fuel address depth maxDepth st =
      ([], { st with visited :=
              if address ∈ st.visited then st.visited
              else st.visited ++ [address] }) := by
  rw [exploreF]
  by_cases hv : address ∈ st.visited
  · simp [hv]
  · simp [hv, h]

/-- Fetcher for the witness of claim C4. -/
def fetchC4w : Fetcher := fun _ => some ⟨true, [⟨"P", "Q", 999, 0, 4⟩]⟩

/-- Witness for c4_depth_bound at depth 3 >= maxDepth 2: the invocation
returns the empty graph and only marks the address visited, although the
fetcher would have answered with a large transfer. -/
theorem c4_depth_bound_witness :
    2 ≤ 3 ∧
    exploreF fetchC4w 10 5 "A" 3 2 initSt =
      ([], { initSt with visited :=
              if "A" ∈ initSt.visited then initSt.visited
              else initSt.visited ++ ["A"] }) :=
  ⟨by decide, c4_depth_bound fetchC4w 10 5 "A" 3 2 initSt (by decide)⟩

end WhaleQuery

/-! ## Trace and graph bookkeeping lemmas -/

namespace WhaleQuery

theorem hitPairs_append (l1 l2 : List Event) :
    hitPairs (l1 ++ l2) = hitPairs l1 ++ hitPairs l2 := by
  induction l1 with
  | nil => rfl
  | cons e rest ih => cases e <;> simp [hitPairs, ih]

theorem pacedFrom_mono (l : List Event) (b : Bool)
    (h : pacedFrom false l = true) : pacedFrom b l = true := by
  cases l with
  | nil => rfl
  | cons e rest =>
    cases e with
    | delayEv ms => simpa [pacedFrom] using h
    | hit p => simp [pacedFrom] at h

theorem pacedFrom_append (l1 l2 : List Event) (b : Bool)
    (h1 : pacedFrom b l1 = true) (h2 : paced l2 = true) :
    pacedFrom b (l1 ++ l2) = true := by
  induction l1 generalizing b with
  | nil => exact pacedFrom_mono l2 b h2
  | cons e rest ih =>
    cases e with
    | delayEv ms =>
      simp only [pacedFrom, List.cons_append] at h1 ⊢
      exact ih true h1
    | hit p =>
      simp only [pacedFrom, List.cons_append, Bool.and_eq_true] at h1 ⊢
      exact ⟨h1.1, ih false h1.2⟩

theorem paced_append (l1 l2 : List Event)
    (h1 : paced l1 = true) (h2 : paced l2 = true) : paced (l1 ++ l2) = true :=
  pacedFrom_append l1 l2 false h1 h2

theorem allPairs_gPush (g : Graph) (k : String) (es : List Transaction) :
    List.Perm (allPairs (gPush g k es))
      (allPairs g ++ es.map (fun e => (k, e))) := by
  induction g with
  | nil => simp [gPush, allPairs]
  | cons kes rest ih =>
    obtain ⟨k1, es1⟩ := kes
    by_cases hk : k1 = k
    · subst hk
      simp only [gPush, if_pos rfl, allPairs, List.map_append, List.append_assoc]
      exact List.Perm.append_left _ List.perm_append_comm
    · simp only [gPush, if_neg hk, allPairs, List.append_assoc]
      exact List.Perm.append_left _ ih

theorem allPairs_mergeInto (g sub : Graph) :
    List.Perm (allPairs (mergeInto g sub)) (allPairs g ++ allPairs sub) := by
  induction sub generalizing g with
  | nil => simp [mergeInto, allPairs]
  | cons kes rest ih =>
    obtain ⟨k, es⟩ := kes
    have h1 : mergeInto g ((k, es) :: rest) = mergeInto (gPush g k es) rest := rfl
    rw [h1]
    refine (ih (gPush g k es)).trans ?_
    refine ((allPairs_gPush g k es).append_right _).trans ?_
    simp [allPairs, List.append_assoc]

/-- The bookkeeping relation between the state before and after one step of
the explorer (a processing block, a recursive call, or a whole node): np,
nV, nT, nK are the edges, visited addresses, trace events and transaction
keys added by the step, with freshness and duplicate-freedom guarantees. -/
structure StepSpecW (minAmount : ℚ) (g : Graph) (st : St) (r : Graph × St)
    (np : List (String × Transaction)) (nV : List String)
    (nT : List Event) (nK : List String) : Prop where
  pairs : List.Perm (allPairs r.1) (allPairs g ++ np)
  vis : r.2.visited = st.visited ++ nV
  trc : r.2.trace = st.trace ++ nT
  ptx : r.2.processedTx = st.processedTx ++ nK
  cnt : r.2.callCount = st.callCount + (hitPairs nT).length
  nodupV : nV.Nodup
  freshV : ∀ a ∈ nV, a ∉ st.visited
  nodupK : nK.Nodup
  freshK : ∀ k ∈ nK, k ∉ st.processedTx
  pacedT : paced nT = true
  nodupHP : (hitPairs nT).Nodup
  hpMem : ∀ q ∈ hitPairs nT, q.1 ∈ nV
  nodupNP : (np.map edgeKey).Nodup
  npMem : ∀ q ∈ np, edgeKey q ∈ nK
  npAmt : ∀ q ∈ np, minAmount ≤ q.2.amount

/-- Existential packaging of StepSpecW. -/
def StepSpec (minAmount : ℚ) (g : Graph) (st : St) (r : Graph × St) : Prop :=
  ∃ np nV nT nK, StepSpecW minAmount g st r np nV nT nK

theorem StepSpec_rfl (minAmount : ℚ) (g : Graph) (st : St) :
    StepSpec minAmount g st (g, st) := by
  refine ⟨[], [], [], [], ?_⟩
  constructor <;> simp [hitPairs, paced, pacedFrom]

theorem StepSpec_mark (minAmount : ℚ) (st : St) (address : String)
    (h : address ∉ st.visited) :
    StepSpec minAmount [] st
      ([], { st with visited := st.visited ++ [address] }) := by
  refine ⟨[], [address], [], [], ?_⟩
  constructor <;> simp [hitPairs, paced, pacedFrom, allPairs, h]

end WhaleQuery

namespace WhaleQuery

theorem StepSpec_trans (minAmount : ℚ) (g : Graph) (st : St)
    (r1 r2 : Graph × St)
    (h1 : StepSpec minAmount g st r1)
    (h2 : StepSpec minAmount r1.1 r1.2 r2) :
    StepSpec minAmount g st r2 := by
  obtain ⟨np1, nV1, nT1, nK1, s1⟩ := h1
  obtain ⟨np2, nV2, nT2, nK2, s2⟩ := h2
  refine ⟨np1 ++ np2, nV1 ++ nV2, nT1 ++ nT2, nK1 ++ nK2, ?_⟩
  have hdisV : ∀ a ∈ nV2, a ∉ nV1 := by
    intro a ha hmem
    exact s2.freshV a ha (by rw [s1.vis]; exact List.mem_append_right _ hmem)
  have hdisK : ∀ k ∈ nK2, k ∉ nK1 := by
    intro k hk hmem
    exact s2.freshK k hk (by rw [s1.ptx]; exact List.mem_append_right _ hmem)
  constructor
  · refine s2.pairs.trans ?_
    have := s1.pairs.append_right np2
    simpa [List.append_assoc] using this
  · rw [s2.vis, s1.vis, List.append_assoc]
  · rw [s2.trc, s1.trc, List.append_assoc]
  · rw [s2.ptx, s1.ptx, List.append_assoc]
  · rw [s2.cnt, s1.cnt, hitPairs_append, List.length_append]
    omega
  · refine List.nodup_append.mpr ⟨s1.nodupV, s2.nodupV, ?_⟩
    intro a ha hb
    exact hdisV a hb ha
  · intro a ha
    rcases List.mem_append.mp ha with h | h
    · exact s1.freshV a h
    · intro hmem
      exact s2.freshV a h (by rw [s1.vis]; exact List.mem_append_left _ hmem)
  · refine List.nodup_append.mpr ⟨s1.nodupK, s2.nodupK, ?_⟩
    intro k hk hb
    exact hdisK k hb hk
  · intro k hk
    rcases List.mem_append.mp hk with h | h
    · exact s1.freshK k h
    · intro hmem
      exact s2.freshK k h (by rw [s1.ptx]; exact List.mem_append_left _ hmem)
  · exact paced_append _ _ s1.pacedT s2.pacedT
  · rw [hitPairs_append]
    refine List.nodup_append.mpr ⟨s1.nodupHP, s2.nodupHP, ?_⟩
    intro q hq1 hq2
    have ha1 : q.1 ∈ nV1 := s1.hpMem q hq1
    have ha2 : q.1 ∈ nV2 := s2.hpMem q hq2
    exact hdisV q.1 ha2 ha1
  · intro q hq
    rw [hitPairs_append] at hq
    rcases List.mem_append.mp hq with h | h
    · exact List.mem_append_left _ (s1.hpMem q h)
    · exact List.mem_append_right _ (s2.hpMem q h)
  · rw [List.map_append]
    refine List.nodup_append.mpr ⟨s1.nodupNP, s2.nodupNP, ?_⟩
    intro k hk1 hk2
    obtain ⟨q1, hq1, rfl⟩ := List.mem_map.mp hk1
    obtain ⟨q2, hq2, he⟩ := List.mem_map.mp hk2
    have hm1 : edgeKey q1 ∈ nK1 := s1.npMem q1 hq1
    have hm2 : edgeKey q2 ∈ nK2 := s2.npMem q2 hq2
    rw [he] at hm2
    exact hdisK _ hm2 hm1
  · intro q hq
    rcases List.mem_append.mp hq with h | h
    · exact List.mem_append_left _ (s1.npMem q h)
    · exact List.mem_append_right _ (s2.npMem q h)
  · intro q hq
    rcases List.mem_append.mp hq with h | h
    · exact s1.npAmt q h
    · exact s2.npAmt q h

end WhaleQuery

namespace WhaleQuery

/-- Extending a step spec backwards over a node's own prefix: marking the
address visited and emitting paced endpoint hits that all carry the node's
address. -/
theorem StepSpec_after_calls (minAmount : ℚ) (st st2 : St) (address : String)
    (pre : List Event) (r : Graph × St)
    (hadr : address ∉ st.visited)
    (hvis : st2.visited = st.visited ++ [address])
    (hptx : st2.processedTx = st.processedTx)
    (hcnt : st2.callCount = st.callCount + (hitPairs pre).length)
    (htrc : st2.trace = st.trace ++ pre)
    (hpaced : paced pre = true)
    (hhp : ∀ q ∈ hitPairs pre, q.1 = address)
    (hnodup : (hitPairs pre).Nodup)
    (h : StepSpec minAmount [] st2 r) :
    StepSpec minAmount [] st r := by
  obtain ⟨np, nV, nT, nK, s⟩ := h
  have hVfresh : ∀ a ∈ nV, a ∉ st.visited ++ [address] := by
    intro a ha
    rw [← hvis]
    exact s.freshV a ha
  refine ⟨np, address :: nV, pre ++ nT, nK, ?_⟩
  constructor
  · exact s.pairs
  · rw [s.vis, hvis]
    simp
  · rw [s.trc, htrc]
    simp
  · rw [s.ptx, hptx]
  · rw [s.cnt, hcnt, hitPairs_append, List.length_append]
    omega
  · refine List.nodup_cons.mpr ⟨?_, s.nodupV⟩
    intro hmem
    exact hVfresh address hmem (List.mem_append_right _ (List.mem_singleton.mpr rfl))
  · intro a ha
    rcases List.mem_cons.mp ha with h | h
    · subst h; exact hadr
    · intro hmem
      exact hVfresh a h (List.mem_append_left _ hmem)
  · exact s.nodupK
  · intro k hk
    rw [← hptx]
    exact s.freshK k hk
  · exact paced_append _ _ hpaced s.pacedT
  · rw [hitPairs_append]
    refine List.nodup_append.mpr ⟨hnodup, s.nodupHP, ?_⟩
    intro q hq1 hq2
    have h1 : q.1 = address := hhp q hq1
    have h2 : q.1 ∈ nV := s.hpMem q hq2
    rw [h1] at h2
    exact hVfresh address h2 (List.mem_append_right _ (List.mem_singleton.mpr rfl))
  · intro q hq
    rw [hitPairs_append] at hq
    rcases List.mem_append.mp hq with h | h
    · exact List.mem_cons.mpr (Or.inl (hhp q h))
    · exact List.mem_cons.mpr (Or.inr (s.hpMem q h))
  · exact s.nodupNP
  · exact s.npMem
  · exact s.npAmt

theorem processIn_spec (recur : String → St → Graph × St) (address : String)
    (minAmount : ℚ) (depth maxDepth : Nat) (resp : SolscanResponse)
    (g : Graph) (st : St)
    (hrec : ∀ a st1, StepSpec minAmount [] st1 (recur a st1)) :
    StepSpec minAmount g st
      (processIn recur address minAmount depth maxDepth resp g st) := by
  rw [processIn]
  by_cases hs : resp.success = true
  · rw [if_pos hs]
    cases hdata : resp.data with
    | nil => exact StepSpec_rfl minAmount g st
    | cons inTx rest0 =>
      dsimp only
      by_cases hamt : minAmount ≤ inTx.amount / (10 : ℚ) ^ inTx.token_decimals
      · rw [if_pos hamt]
        by_cases hkey :
            inTx.from_address ++ "-" ++ address ++ "-" ++ toString inTx.block_time
              ∈ st.processedTx
        · rw [if_pos hkey]
          exact StepSpec_rfl minAmount g st
        · rw [if_neg hkey]
          by_cases hd : depth < maxDepth - 1
          · rw [if_pos hd]
            obtain ⟨np1, nV1, nT1, nK1, s1⟩ := hrec inTx.from_address
              { st with processedTx := st.processedTx ++
                  [inTx.from_address ++ "-" ++ address ++ "-" ++ toString inTx.block_time] }
            refine ⟨(inTx.from_address,
                ⟨address, inTx.amount / (10 : ℚ) ^ inTx.token_decimals,
                 inTx.block_time, formatLocale inTx.block_time,
                 some Flow.inflow⟩) :: np1,
              nV1, nT1,
              (inTx.from_address ++ "-" ++ address ++ "-" ++ toString inTx.block_time)
                :: nK1, ?_⟩
            have hKfresh : ∀ k ∈ nK1, k ∉ st.processedTx ++
                [inTx.from_address ++ "-" ++ address ++ "-" ++ toString inTx.block_time] :=
              s1.freshK
            constructor
            · refine (allPairs_mergeInto _ _).trans ?_
              have hp1 : List.Perm (allPairs
                  (gPush g inTx.from_address
                    [⟨address, inTx.amount / (10 : ℚ) ^ inTx.token_decimals,
                      inTx.block_time, formatLocale inTx.block_time,
                      some Flow.inflow⟩]))
                  (allPairs g ++ [(inTx.from_address,
                    ⟨address, inTx.amount / (10 : ℚ) ^ inTx.token_decimals,
                     inTx.block_time, formatLocale inTx.block_time,
                     some Flow.inflow⟩)]) := allPairs_gPush g _ _
              have hp2 := s1.pairs
              simp only [allPairs, List.nil_append] at hp2
              refine (hp1.append hp2).trans ?_
              simp [List.append_assoc]
            · rw [s1.vis]
            · rw [s1.trc]
            · rw [s1.ptx]
              simp
            · rw [s1.cnt]
            · exact s1.nodupV
            · exact s1.freshV
            · refine List.nodup_cons.mpr ⟨?_, s1.nodupK⟩
              intro hmem
              exact hKfresh _ hmem
                (List.mem_append_right _ (List.mem_singleton.mpr rfl))
            · intro k hk
              rcases List.mem_cons.mp hk with h | h
              · subst h; exact hkey
              · intro hmem
                exact hKfresh k h (List.mem_append_left _ hmem)
            · exact s1.pacedT
            · exact s1.nodupHP
            · exact s1.hpMem
            · refine List.nodup_cons.mpr ⟨?_, s1.nodupNP⟩
              intro hmem
              obtain ⟨q, hq, he⟩ := List.mem_map.mp hmem
              have : edgeKey q ∈ nK1 := s1.npMem q hq
              rw [he] at this
              exact hKfresh _ this
                (List.mem_append_right _ (List.mem_singleton.mpr rfl))
            · intro q hq
              rcases List.mem_cons.mp hq with h | h
              · subst h
                exact List.mem_cons.mpr (Or.inl rfl)
              · exact List.mem_cons.mpr (Or.inr (s1.npMem q h))
            · intro q hq
              rcases List.mem_cons.mp hq with h | h
              · subst h; exact hamt
              · exact s1.npAmt q h
          · rw [if_neg hd]
            refine ⟨[(inTx.from_address,
                ⟨address, inTx.amount / (10 : ℚ) ^ inTx.token_decimals,
                 inTx.block_time, formatLocale inTx.block_time,
                 some Flow.inflow⟩)],
              [], [],
              [inTx.from_address ++ "-" ++ address ++ "-" ++ toString inTx.block_time],
              ?_⟩
            constructor
            · simpa using allPairs_gPush g inTx.from_address _
            · simp
            · simp
            · simp
            · simp [hitPairs]
            · simp
            · simp
            · simp
            · simpa using hkey
            · simp [paced, pacedFrom]
            · simp [hitPairs]
            · simp [hitPairs]
            · simp
            · intro q hq
              rcases List.mem_singleton.mp hq with rfl
              simp [edgeKey, tripleOf, tripleKeyStr]
            · intro q hq
              rcases List.mem_singleton.mp hq with rfl
              exact hamt
      · rw [if_neg hamt]
        exact StepSpec_rfl minAmount g st
  · rw [if_neg hs]
    exact StepSpec_rfl minAmount g st

end WhaleQuery

namespace WhaleQuery

theorem processOut_spec (recur : String → St → Graph × St) (address : String)
    (minAmount : ℚ) (depth maxDepth : Nat) (resp : SolscanResponse)
    (g : Graph) (st : St)
    (hrec : ∀ a st1, StepSpec minAmount [] st1 (recur a st1)) :
    StepSpec minAmount g st
      (processOut recur address minAmount depth maxDepth resp g st) := by
  rw [processOut]
  by_cases hs : resp.success = true
  · rw [if_pos hs]
    cases hdata : resp.data with
    | nil => exact StepSpec_rfl minAmount g st
    | cons outTx rest0 =>
      dsimp only
      by_cases hamt : minAmount ≤ outTx.amount / (10 : ℚ) ^ outTx.token_decimals
      · rw [if_pos hamt]
        by_cases hkey :
            address ++ "-" ++ outTx.to_address ++ "-" ++ toString outTx.block_time
              ∈ st.processedTx
        · rw [if_pos hkey]
          exact StepSpec_rfl minAmount g st
        · rw [if_neg hkey]
          by_cases hd : depth < maxDepth - 1
          · rw [if_pos hd]
            obtain ⟨np1, nV1, nT1, nK1, s1⟩ := hrec outTx.to_address
              { st with processedTx := st.processedTx ++
                  [address ++ "-" ++ outTx.to_address ++ "-" ++ toString outTx.block_time] }
            refine ⟨(address,
                ⟨outTx.to_address, outTx.amount / (10 : ℚ) ^ outTx.token_decimals,
                 outTx.block_time, formatLocale outTx.block_time,
                 some Flow.outflow⟩) :: np1,
              nV1, nT1,
              (address ++ "-" ++ outTx.to_address ++ "-" ++ toString outTx.block_time)
                :: nK1, ?_⟩
            have hKfresh : ∀ k ∈ nK1, k ∉ st.processedTx ++
                [address ++ "-" ++ outTx.to_address ++ "-" ++ toString outTx.block_time] :=
              s1.freshK
            constructor
            · refine (allPairs_mergeInto _ _).trans ?_
              have hp1 : List.Perm (allPairs
                  (gPush g address
                    [⟨outTx.to_address, outTx.amount / (10 : ℚ) ^ outTx.token_decimals,
                      outTx.block_time, formatLocale outTx.block_time,
                      some Flow.outflow⟩]))
                  (allPairs g ++ [(address,
                    ⟨outTx.to_address, outTx.amount / (10 : ℚ) ^ outTx.token_decimals,
                     outTx.block_time, formatLocale outTx.block_time,
                     some Flow.outflow⟩)]) := allPairs_gPush g _ _
              have hp2 := s1.pairs
              simp only [allPairs, List.nil_append] at hp2
              refine (hp1.append hp2).trans ?_
              simp [List.append_assoc]
            · rw [s1.vis]
            · rw [s1.trc]
            · rw [s1.ptx]
              simp
            · rw [s1.cnt]
            · exact s1.nodupV
            · exact s1.freshV
            · refine List.nodup_cons.mpr ⟨?_, s1.nodupK⟩
              intro hmem
              exact hKfresh _ hmem
                (List.mem_append_right _ (List.mem_singleton.mpr rfl))
            · intro k hk
              rcases List.mem_cons.mp hk with h | h
              · subst h; exact hkey
              · intro hmem
                exact hKfresh k h (List.mem_append_left _ hmem)
            · exact s1.pacedT
            · exact s1.nodupHP
            · exact s1.hpMem
            · refine List.nodup_cons.mpr ⟨?_, s1.nodupNP⟩
              intro hmem
              obtain ⟨q, hq, he⟩ := List.mem_map.mp hmem
              have : edgeKey q ∈ nK1 := s1.npMem q hq
              rw [he] at this
              exact hKfresh _ this
                (List.mem_append_right _ (List.mem_singleton.mpr rfl))
            · intro q hq
              rcases List.mem_cons.mp hq with h | h
              · subst h
                exact List.mem_cons.mpr (Or.inl rfl)
              · exact List.mem_cons.mpr (Or.inr (s1.npMem q h))
            · intro q hq
              rcases List.mem_cons.mp hq with h | h
              · subst h; exact hamt
              · exact s1.npAmt q h
          · rw [if_neg hd]
            refine ⟨[(address,
                ⟨outTx.to_address, outTx.amount / (10 : ℚ) ^ outTx.token_decimals,
                 outTx.block_time, formatLocale outTx.block_time,
                 some Flow.outflow⟩)],
              [], [],
              [address ++ "-" ++ outTx.to_address ++ "-" ++ toString outTx.block_time],
              ?_⟩
            constructor
            · simpa using allPairs_gPush g address _
            · simp
            · simp
            · simp
            · simp [hitPairs]
            · simp
            · simp
            · simp
            · simpa using hkey
            · simp [paced, pacedFrom]
            · simp [hitPairs]
            · simp [hitPairs]
            · simp
            · intro q hq
              rcases List.mem_singleton.mp hq with rfl
              simp [edgeKey, tripleOf, tripleKeyStr]
            · intro q hq
              rcases List.mem_singleton.mp hq with rfl
              exact hamt
      · rw [if_neg hamt]
        exact StepSpec_rfl minAmount g st
  · rw [if_neg hs]
    exact StepSpec_rfl minAmount g st

end WhaleQuery

namespace WhaleQuery

/-- Master bookkeeping lemma for the recursive explorer: every invocation
relates its output to its input state by a StepSpec — fresh, duplicate-free
visited additions and transaction keys, paced trace extension, call counter
advancing by the number of endpoint hits, all output edges keyed by fresh
transaction keys and clearing the minimum amount. -/
theorem exploreF_spec (fetch : Fetcher) (minAmount : ℚ) :
    ∀ (fuel : Nat) (address : String) (depth maxDepth : Nat) (st : St),
    StepSpec minAmount [] st (exploreF fetch minAmount fuel address depth maxDepth st) := by
  intro fuel
  induction fuel with
  | zero =>
    intro address depth maxD st
    rw [exploreF]
    by_cases hv : address ∈ st.visited
    · rw [if_pos hv]
      exact StepSpec_rfl minAmount [] st
    · rw [if_neg hv]
      dsimp only
      by_cases hd : maxD ≤ depth
      · rw [if_pos hd]
        exact StepSpec_mark minAmount st address hv
      · rw [if_neg hd]
        exact StepSpec_mark minAmount st address hv
  | succ fuel1 ih =>
    intro address depth maxD st
    rw [exploreF]
    by_cases hv : address ∈ st.visited
    · rw [if_pos hv]
      exact StepSpec_rfl minAmount [] st
    · rw [if_neg hv]
      dsimp only
      by_cases hd : maxD ≤ depth
      · rw [if_pos hd]
        exact StepSpec_mark minAmount st address hv
      · rw [if_neg hd]
        dsimp only [callSolscanAPI]
        cases hin : fetch (inQueryParams address minAmount) with
        | none =>
          refine StepSpec_after_calls minAmount st _ address
            [Event.delayEv API_DELAY, Event.hit (inQueryParams address minAmount)]
            _ hv ?_ ?_ ?_ ?_ ?_ ?_ ?_ (StepSpec_rfl minAmount [] _)
          · simp
          · simp
          · simp [hitPairs]
          · simp
          · rfl
          · intro q hq
            simp [hitPairs, inQueryParams] at hq
            rw [hq]
          · simp [hitPairs]
        | some inResp =>
          dsimp only
          cases hout : fetch (outQueryParams address minAmount) with
          | none =>
            refine StepSpec_after_calls minAmount st _ address
              [Event.delayEv API_DELAY, Event.hit (inQueryParams address minAmount),
               Event.delayEv API_DELAY, Event.delayEv API_DELAY,
               Event.hit (outQueryParams address minAmount)]
              _ hv ?_ ?_ ?_ ?_ ?_ ?_ ?_ (StepSpec_rfl minAmount [] _)
            · simp
            · simp
            · simp [hitPairs]
            · simp [List.append_assoc]
            · rfl
            · intro q hq
              simp [hitPairs, inQueryParams, outQueryParams] at hq
              rcases hq with h | h <;> rw [h]
            · simp [hitPairs, inQueryParams, outQueryParams]
          | some outResp =>
            have hrec : ∀ a st1, StepSpec minAmount [] st1
                (exploreF fetch minAmount fuel1 a (depth + 1) maxD st1) :=
              fun a st1 => ih a (depth + 1) maxD st1
            refine StepSpec_after_calls minAmount st
              { st with visited := st.visited ++ [address],
                        callCount := st.callCount + 1 + 1,
                        trace := st.trace ++
                          [Event.delayEv API_DELAY, Event.hit (inQueryParams address minAmount)] ++
                          [Event.delayEv API_DELAY] ++
                          [Event.delayEv API_DELAY, Event.hit (outQueryParams address minAmount)] }
              address
              [Event.delayEv API_DELAY, Event.hit (inQueryParams address minAmount),
               Event.delayEv API_DELAY, Event.delayEv API_DELAY,
               Event.hit (outQueryParams address minAmount)]
              _ hv ?_ ?_ ?_ ?_ ?_ ?_ ?_ ?_
            · simp
            · simp
            · simp [hitPairs]
            · simp [List.append_assoc]
            · rfl
            · intro q hq
              simp [hitPairs, inQueryParams, outQueryParams] at hq
              rcases hq with h | h <;> rw [h]
            · simp [hitPairs, inQueryParams, outQueryParams]
            · exact StepSpec_trans minAmount [] _ _ _
                (processIn_spec _ address minAmount depth maxD inResp [] _ hrec)
                (processOut_spec _ address minAmount depth maxD outResp _ _ hrec)

end WhaleQuery

namespace WhaleQuery

/-- [C5] No revisits: for a top-level traversal started on the fresh state,
each address is added to the visited set at most once (the final visited
list is duplicate-free) and the Fetcher is never invoked twice for the same
(address, direction) pair (the trace's hit pairs are duplicate-free);
moreover any invocation on an already-visited address — as when a cycle is
re-encountered — returns the empty partial graph with the state untouched,
so no Fetcher call is issued for it. -/
theorem c5_no_revisits (fetch : Fetcher) (minAmount : ℚ) (fuel : Nat)
    (address : String) (depth maxDepth : Nat) :
    (exploreF fetch minAmount fuel address depth maxDepth initSt).2.visited.Nodup ∧
    (hitPairs (exploreF fetch minAmount fuel address depth maxDepth initSt).2.trace).Nodup ∧
    (∀ (st : St) (a2 : String), a2 ∈ st.visited →
      exploreF fetch minAmount fuel a2 depth maxDepth st = ([], st)) := by
  obtain ⟨np, nV, nT, nK, s⟩ :=
    exploreF_spec fetch minAmount fuel address depth maxDepth initSt
  refine ⟨?_, ?_, ?_⟩
  · rw [s.vis]
    simpa using s.nodupV
  · rw [s.trc]
    simpa [hitPairs] using s.nodupHP
  · intro st a2 h2
    rw [exploreF, if_pos h2]

/-- Fetcher for the witness of claim C5: a two-node cycle A -> B -> A. -/
def fetchC5w : Fetcher := fun p =>
  if p = outQueryParams "A" 10 then some ⟨true, [⟨"A", "B", 50, 0, 1⟩]⟩
  else if p = outQueryParams "B" 10 then some ⟨true, [⟨"B", "A", 40, 0, 2⟩]⟩
  else some ⟨true, []⟩

set_option maxRecDepth 10000 in
/-- Witness for c5_no_revisits on the cycle A -> B -> A with maxDepth 3:
visited and hit pairs are duplicate-free, and the re-entry into A from B's
recursion returns the empty graph with the state unchanged. -/
theorem c5_no_revisits_witness :
    (exploreF fetchC5w 10 3 "A" 0 3 initSt).2.visited.Nodup ∧
    (hitPairs (exploreF fetchC5w 10 3 "A" 0 3 initSt).2.trace).Nodup ∧
    exploreF fetchC5w 10 3 "A" 0 3 ⟨["A"], [], 0, []⟩ = ([], ⟨["A"], [], 0, []⟩) :=
  ⟨(c5_no_revisits fetchC5w 10 3 "A" 0 3).1,
   (c5_no_revisits fetchC5w 10 3 "A" 0 3).2.1,
   (c5_no_revisits fetchC5w 10 3 "A" 0 3).2.2 ⟨["A"], [], 0, []⟩ "A"
     (by with_unfolding_all decide)⟩

/-- [C6] Transaction dedup: in the graph returned by any invocation of the
recursive explorer, no two edges (across all origin keys) share the same
(fromAddress, toAddress, timestampUnix) triple. -/
theorem c6_transaction_dedup (fetch : Fetcher) (minAmount : ℚ) (fuel : Nat)
    (address : String) (depth maxDepth : Nat) (st : St) :
    ((allPairs (exploreF fetch minAmount fuel address depth maxDepth st).1).map
      tripleOf).Nodup := by
  obtain ⟨np, nV, nT, nK, s⟩ :=
    exploreF_spec fetch minAmount fuel address depth maxDepth st
  have hperm : List.Perm
      (allPairs (exploreF fetch minAmount fuel address depth maxDepth st).1) np := by
    simpa [allPairs] using s.pairs
  have h1 : ((allPairs
      (exploreF fetch minAmount fuel address depth maxDepth st).1).map edgeKey).Nodup :=
    ((hperm.map edgeKey).nodup_iff).mpr s.nodupNP
  refine List.Nodup.of_map tripleKeyStr ?_
  rw [List.map_map]
  exact h1

/-- [C7] Minimum-amount filter: every edge of the graph returned by any
invocation of the recursive explorer has normalized amount at least the
minAmount supplied to that traversal. -/
theorem c7_min_amount (fetch : Fetcher) (minAmount : ℚ) (fuel : Nat)
    (address : String) (depth maxDepth : Nat) (st : St) :
    ∀ p ∈ allPairs (exploreF fetch minAmount fuel address depth maxDepth st).1,
      minAmount ≤ p.2.amount := by
  obtain ⟨np, nV, nT, nK, s⟩ :=
    exploreF_spec fetch minAmount fuel address depth maxDepth st
  have hperm : List.Perm
      (allPairs (exploreF fetch minAmount fuel address depth maxDepth st).1) np := by
    simpa [allPairs] using s.pairs
  intro p hp
  exact s.npAmt p (hperm.subset hp)

/-- Fetcher for the witness of claim C7, scenario-B shaped. -/
def fetchC7w : Fetcher := fun p =>
  if p = outQueryParams "A" 10 then some ⟨true, [⟨"A", "B", 50, 0, 1000⟩]⟩
  else some ⟨true, []⟩

set_option maxRecDepth 10000 in
/-- Witness for c7_min_amount: the concrete edge A -> B of amount 50
produced by a traversal with minAmount 10 indeed satisfies 10 <= 50. -/
theorem c7_min_amount_witness :
    (10 : ℚ) ≤ (("A",
      (⟨"B", 50, 1000, formatLocale 1000, some Flow.outflow⟩ : Transaction))).2.amount :=
  c7_min_amount fetchC7w 10 2 "A" 0 2 initSt
    ("A", ⟨"B", 50, 1000, formatLocale 1000, some Flow.outflow⟩)
    (by with_unfolding_all decide)

/-- [C9] Amended claim, proved for the recursive explorer: every external
call the explorer issues goes through the callSolscanAPI wrapper — the
trace it appends is paced (every endpoint hit is immediately preceded by
the fixed inter-call delay) and the call counter advances by exactly the
number of endpoint hits. -/
theorem c9_wrapped_calls (fetch : Fetcher) (minAmount : ℚ) (fuel : Nat)
    (address : String) (depth maxDepth : Nat) (st : St) :
    ∃ newT,
      (exploreF fetch minAmount fuel address depth maxDepth st).2.trace
        = st.trace ++ newT ∧
      paced newT = true ∧
      (exploreF fetch minAmount fuel address depth maxDepth st).2.callCount
        = st.callCount + (hitPairs newT).length := by
  obtain ⟨np, nV, nT, nK, s⟩ :=
    exploreF_spec fetch minAmount fuel address depth maxDepth st
  exact ⟨nT, s.trc, s.pacedT, s.cnt⟩

end WhaleQuery

namespace WhaleQuery

/-- [C2] Amended claim, proved: an error from either Fetcher call of a node
is caught at the node level, and the node then contributes nothing at all —
if the inbound call fails, the outbound call for that node is not even
issued; if the outbound call fails, the already-fetched inbound data is
discarded; in both cases the invocation returns the empty partial graph
normally (rather than propagating the error), which is why sibling
recursion branches and the top-level traversal always continue. -/
theorem c2_error_isolation (fetch : Fetcher) (minAmount : ℚ) (fuel : Nat)
    (address : String) (depth maxDepth : Nat) (st : St)
    (hv : address ∉ st.visited) (hd : depth < maxDepth) :
    (fetch (inQueryParams address minAmount) = none →
      exploreF fetch minAmount (fuel + 1) address depth maxDepth st =
        ([], { st with visited := st.visited ++ [address],
                       callCount := st.callCount + 1,
                       trace := st.trace ++ [Event.delayEv API_DELAY,
                         Event.hit (inQueryParams address minAmount)] })) ∧
    (∀ inResp, fetch (inQueryParams address minAmount) = some inResp →
      fetch (outQueryParams address minAmount) = none →
      exploreF fetch minAmount (fuel + 1) address depth maxDepth st =
        ([], { st with visited := st.visited ++ [address],
                       callCount := st.callCount + 1 + 1,
                       trace := st.trace ++ [Event.delayEv API_DELAY,
                           Event.hit (inQueryParams address minAmount)] ++
                         [Event.delayEv API_DELAY] ++
                         [Event.delayEv API_DELAY,
                           Event.hit (outQueryParams address minAmount)] })) := by
  constructor
  · intro hin
    rw [exploreF, if_neg hv]
    dsimp only
    rw [if_neg (Nat.not_le.mpr hd)]
    dsimp only [callSolscanAPI]
    rw [hin]
  · intro inResp hin hout
    rw [exploreF, if_neg hv]
    dsimp only
    rw [if_neg (Nat.not_le.mpr hd)]
    dsimp only [callSolscanAPI]
    rw [hin]
    dsimp only
    rw [hout]

/-- Witness for c2_error_isolation at the concrete failing-inbound fetcher:
the node returns the empty graph after a single counted inbound call. -/
theorem c2_error_isolation_witness :
    "A" ∉ initSt.visited ∧ 0 < 2 ∧
    exploreF fetchC2cx 10 (1 + 1) "A" 0 2 initSt =
      ([], { initSt with visited := initSt.visited ++ ["A"],
                         callCount := initSt.callCount + 1,
                         trace := initSt.trace ++ [Event.delayEv API_DELAY,
                           Event.hit (inQueryParams "A" 10)] }) :=
  ⟨by decide, by decide,
   (c2_error_isolation fetchC2cx 10 1 "A" 0 2 initSt (by decide) (by decide)).1
     (by with_unfolding_all decide)⟩

end WhaleQuery

namespace WhaleQuery

theorem dmGet_dmSet_self (dm : DepthMap) (k : String) (v : Int) :
    dmGet (dmSet dm k v) k = some v := by
  induction dm with
  | nil => simp [dmSet, dmGet]
  | cons kv rest ih =>
    obtain ⟨k1, v1⟩ := kv
    by_cases h : k1 = k
    · subst h
      simp [dmSet, dmGet]
    · simp [dmSet, dmGet, h, ih]

theorem dmGet_dmSet_ne (dm : DepthMap) (k : String) (v : Int) (k2 : String)
    (h : k ≠ k2) : dmGet (dmSet dm k v) k2 = dmGet dm k2 := by
  induction dm with
  | nil => simp [dmSet, dmGet, h]
  | cons kv rest ih =>
    obtain ⟨k1, v1⟩ := kv
    by_cases h1 : k1 = k
    · subst h1
      simp [dmSet, dmGet, h]
    · simp [dmSet, dmGet, h1, ih]

theorem dmGet_depthPassEdge_preserved (origin : String) (dm : DepthMap)
    (e : Transaction) (k : String) (v : Int) (h : dmGet dm k = some v) :
    dmGet (depthPassEdge origin dm e) k = some v := by
  rw [depthPassEdge]
  by_cases ht : e.type = some Flow.inflow
  · rw [if_pos ht]
    by_cases ha : dmHas dm origin
    · rw [if_pos ha]
      exact h
    · rw [if_neg ha]
      by_cases hk : origin = k
      · subst hk
        rw [dmHas, h] at ha
        simp at ha
      · rw [dmGet_dmSet_ne dm origin _ k hk]
        exact h
  · rw [if_neg ht]
    by_cases ha : dmHas dm e.toAddr
    · rw [if_pos ha]
      exact h
    · rw [if_neg ha]
      by_cases hk : e.toAddr = k
      · subst hk
        rw [dmHas, h] at ha
        simp at ha
      · rw [dmGet_dmSet_ne dm e.toAddr _ k hk]
        exact h

theorem dmGet_edgeFold_preserved (origin : String) (es : List Transaction)
    (dm : DepthMap) (k : String) (v : Int) (h : dmGet dm k = some v) :
    dmGet (es.foldl (depthPassEdge origin) dm) k = some v := by
  induction es generalizing dm with
  | nil => exact h
  | cons e rest ih =>
    exact ih _ (dmGet_depthPassEdge_preserved origin dm e k v h)

theorem dmGet_depthPass_preserved (g : Graph) (dm : DepthMap) (k : String)
    (v : Int) (h : dmGet dm k = some v) :
    dmGet (depthPass g dm) k = some v := by
  induction g generalizing dm with
  | nil => exact h
  | cons kes rest ih =>
    exact ih _ (dmGet_edgeFold_preserved kes.1 kes.2 dm k v h)

/-- [C3] Amended claim, proved: classify initializes depth(root) = 0 (and
root keeps that depth through every pass); in a pass, an In edge at origin
f with f unassigned assigns depth(f) = (assigned depth of edge.to, DEFAULTED
TO 0 when edge.to is unassigned) + 1, and an Out (or typeless) edge with
edge.to unassigned assigns depth(edge.to) = (depth of f, defaulted to 0)
- 1.  An address whose defining edge is processed before its reference node
has been assigned therefore still receives a depth — computed from the
default 0 — rather than remaining unset; also, the source runs the
identical pass four times, not once. -/
theorem c3_depth_assignment :
    (∀ (g : Graph) (root : String),
      dmGet (classifyDepths g root) root = some 0) ∧
    (∀ (origin : String) (dm : DepthMap) (e : Transaction),
      e.type = some Flow.inflow → dmHas dm origin = false →
      dmGet (depthPassEdge origin dm e) origin
        = some ((dmGet dm e.toAddr).getD 0 + 1)) ∧
    (∀ (origin : String) (dm : DepthMap) (e : Transaction),
      e.type ≠ some Flow.inflow → dmHas dm e.toAddr = false →
      dmGet (depthPassEdge origin dm e) e.toAddr
        = some ((dmGet dm origin).getD 0 - 1)) := by
  refine ⟨?_, ?_, ?_⟩
  · intro g root
    have h0 : dmGet (dmSet [] root 0) root = some 0 := dmGet_dmSet_self [] root 0
    rw [classifyDepths]
    exact dmGet_depthPass_preserved g _ root 0
      (dmGet_depthPass_preserved g _ root 0
        (dmGet_depthPass_preserved g _ root 0
          (dmGet_depthPass_preserved g _ root 0 h0)))
  · intro origin dm e ht ha
    rw [depthPassEdge, if_pos ht, if_neg (by rw [ha]; simp)]
    exact dmGet_dmSet_self dm origin _
  · intro origin dm e ht ha
    rw [depthPassEdge, if_neg ht, if_neg (by rw [ha]; simp)]
    exact dmGet_dmSet_self dm e.toAddr _

/-- Witness for c3_depth_assignment on concrete inputs: root depth on the
C3 graph, an In edge whose reference Y is unassigned assigning its origin X
depth 0 + 1, and an Out edge whose reference origin is unassigned assigning
its target depth 0 - 1. -/
theorem c3_depth_assignment_witness :
    dmGet (classifyDepths graphC3 "R") "R" = some 0 ∧
    dmGet (depthPassEdge "X" [("R", 0)]
        ⟨"Y", 1, 5, formatLocale 5, some Flow.inflow⟩) "X"
      = some ((dmGet [("R", 0)] "Y").getD 0 + 1) ∧
    dmGet (depthPassEdge "U" [("R", 0)]
        ⟨"V", 1, 6, formatLocale 6, some Flow.outflow⟩) "V"
      = some ((dmGet [("R", 0)] "U").getD 0 - 1) :=
  ⟨c3_depth_assignment.1 graphC3 "R",
   c3_depth_assignment.2.1 "X" [("R", 0)]
     ⟨"Y", 1, 5, formatLocale 5, some Flow.inflow⟩ (by decide) (by decide),
   c3_depth_assignment.2.2 "U" [("R", 0)]
     ⟨"V", 1, 6, formatLocale 6, some Flow.outflow⟩ (by decide) (by decide)⟩

end WhaleQuery

namespace WhaleQuery

/-- A response contains no qualifying transfer: non-success, or empty page,
or the first (only consulted) record's normalized amount is below
minAmount. -/
def noQualB (resp : SolscanResponse) (minAmount : ℚ) : Bool :=
  !resp.success ||
    match resp.data with
    | [] => true
    | tx :: _ => decide (tx.amount / (10 : ℚ) ^ tx.token_decimals < minAmount)

theorem processIn_noQual (recur : String → St → Graph × St) (address : String)
    (minAmount : ℚ) (depth maxDepth : Nat) (resp : SolscanResponse)
    (g : Graph) (st : St) (h : noQualB resp minAmount = true) :
    processIn recur address minAmount depth maxDepth resp g st = (g, st) := by
  rw [processIn]
  cases hs : resp.success with
  | false => rw [if_neg (by simp)]
  | true =>
    rw [if_pos rfl]
    rw [noQualB, hs] at h
    simp only [Bool.not_true, Bool.false_or] at h
    cases hdata : resp.data with
    | nil => rfl
    | cons tx rest =>
      rw [hdata] at h
      dsimp only at h
      have hlt : tx.amount / (10 : ℚ) ^ tx.token_decimals < minAmount :=
        of_decide_eq_true h
      dsimp only
      rw [if_neg (not_le.mpr hlt)]

theorem processOut_noQual (recur : String → St → Graph × St) (address : String)
    (minAmount : ℚ) (depth maxDepth : Nat) (resp : SolscanResponse)
    (g : Graph) (st : St) (h : noQualB resp minAmount = true) :
    processOut recur address minAmount depth maxDepth resp g st = (g, st) := by
  rw [processOut]
  cases hs : resp.success with
  | false => rw [if_neg (by simp)]
  | true =>
    rw [if_pos rfl]
    rw [noQualB, hs] at h
    simp only [Bool.not_true, Bool.false_or] at h
    cases hdata : resp.data with
    | nil => rfl
    | cons tx rest =>
      rw [hdata] at h
      dsimp only at h
      have hlt : tx.amount / (10 : ℚ) ^ tx.token_decimals < minAmount :=
        of_decide_eq_true h
      dsimp only
      rw [if_neg (not_le.mpr hlt)]

theorem exploreF_noQual (fetch : Fetcher) (minAmount : ℚ) (fuel : Nat)
    (address : String) (depth maxDepth : Nat) (st : St)
    (hv : address ∉ st.visited) (hd : depth < maxDepth)
    (ra rb : SolscanResponse)
    (hin : fetch (inQueryParams address minAmount) = some ra)
    (hout : fetch (outQueryParams address minAmount) = some rb)
    (hqa : noQualB ra minAmount = true)
    (hqb : noQualB rb minAmount = true) :
    exploreF fetch minAmount (fuel + 1) address depth maxDepth st =
      ([], { st with visited := st.visited ++ [address],
                     callCount := st.callCount + 1 + 1,
                     trace := st.trace ++ [Event.delayEv API_DELAY,
                         Event.hit (inQueryParams address minAmount)] ++
                       [Event.delayEv API_DELAY] ++
                       [Event.delayEv API_DELAY,
                         Event.hit (outQueryParams address minAmount)] }) := by
  rw [exploreF, if_neg hv]
  dsimp only
  rw [if_neg (Nat.not_le.mpr hd)]
  dsimp only [callSolscanAPI]
  rw [hin]
  dsimp only
  rw [hout]
  dsimp only
  rw [processIn_noQual _ _ _ _ _ _ _ _ hqa, processOut_noQual _ _ _ _ _ _ _ _ hqb]

/-- [C8] Scenario A: when the root has no qualifying inbound and no
qualifying outbound transfer (both queries answer, but with non-success,
an empty page, or a first record below minAmount), the top-level analysis
returns an empty graph, the visited set is exactly {root}, and the call
counter — reset to 0 at the start of the traversal — ends at exactly 2. -/
theorem c8_scenarioA (fetch : Fetcher) (root : String) (minAmount : ℚ)
    (ra rb : SolscanResponse)
    (hin : fetch (inQueryParams root minAmount) = some ra)
    (hout : fetch (outQueryParams root minAmount) = some rb)
    (hqa : noQualB ra minAmount = true)
    (hqb : noQualB rb minAmount = true) :
    (getAddressRelationGraph fetch root minAmount).1 = [] ∧
    (getAddressRelationGraph fetch root minAmount).2.2.visited = [root] ∧
    (getAddressRelationGraph fetch root minAmount).2.2.callCount = 2 := by
  have hr : exploreF fetch minAmount (1 + 1) root 0 2 initSt =
      ([], { initSt with visited := initSt.visited ++ [root],
                         callCount := initSt.callCount + 1 + 1,
                         trace := initSt.trace ++ [Event.delayEv API_DELAY,
                             Event.hit (inQueryParams root minAmount)] ++
                           [Event.delayEv API_DELAY] ++
                           [Event.delayEv API_DELAY,
                             Event.hit (outQueryParams root minAmount)] }) :=
    exploreF_noQual fetch minAmount 1 root 0 2 initSt (by simp [initSt])
      (by omega) ra rb hin hout hqa hqb
  have hr2 : getRelatedTransactions fetch root minAmount 0 2 initSt =
      ([], { initSt with visited := initSt.visited ++ [root],
                         callCount := initSt.callCount + 1 + 1,
                         trace := initSt.trace ++ [Event.delayEv API_DELAY,
                             Event.hit (inQueryParams root minAmount)] ++
                           [Event.delayEv API_DELAY] ++
                           [Event.delayEv API_DELAY,
                             Event.hit (outQueryParams root minAmount)] }) := hr
  refine ⟨?_, ?_, ?_⟩ <;>
  simp only [getAddressRelationGraph] <;>
  rw [hr2] <;>
  simp [initSt]

/-- Fetcher for the witness of claim C8: the inbound page holds one record
far below the minimum, the outbound page is empty. -/
def fetchC8w : Fetcher := fun p =>
  if p = inQueryParams "R" 100 then some ⟨true, [⟨"Z", "R", 5, 0, 1⟩]⟩
  else if p = outQueryParams "R" 100 then some ⟨true, []⟩
  else none

/-- Witness for c8_scenarioA on the concrete fetcher. -/
theorem c8_scenarioA_witness :
    (getAddressRelationGraph fetchC8w "R" 100).1 = [] ∧
    (getAddressRelationGraph fetchC8w "R" 100).2.2.visited = ["R"] ∧
    (getAddressRelationGraph fetchC8w "R" 100).2.2.callCount = 2 :=
  c8_scenarioA fetchC8w "R" 100 ⟨true, [⟨"Z", "R", 5, 0, 1⟩]⟩ ⟨true, []⟩
    (by with_unfolding_all decide) (by with_unfolding_all decide)
    (by with_unfolding_all decide) (by with_unfolding_all decide)

end WhaleQuery

namespace WhaleQuery

theorem getLatestTransaction_edgeCount (fetch : Fetcher) (a : String) (st : St) :
    edgeCount (getLatestTransaction fetch a st).1 ≤ 1 := by
  rw [getLatestTransaction]
  cases fetch (latestQueryParams a) with
  | none => simp [edgeCount, allPairs]
  | some resp =>
    cases hs : resp.success with
    | false => simp [hs, edgeCount, allPairs]
    | true =>
      cases hdata : resp.data with
      | nil => simp [hs, hdata, edgeCount, allPairs]
      | cons tx rest => simp [hs, hdata, edgeCount, allPairs]

theorem edgeCount_mergeInto (g h : Graph) :
    edgeCount (mergeInto g h) = edgeCount g + edgeCount h := by
  have hp := allPairs_mergeInto g h
  simpa [edgeCount] using hp.length_eq

theorem mergeMaps_edgeCount (gs : List Graph) :
    edgeCount (mergeMaps gs) = (gs.map edgeCount).sum := by
  suffices h : ∀ acc, edgeCount (gs.foldl mergeInto acc)
      = edgeCount acc + (gs.map edgeCount).sum by
    simpa [mergeMaps, edgeCount, allPairs] using h []
  induction gs with
  | nil =>
    intro acc
    simp
  | cons g rest ih =>
    intro acc
    simp only [List.foldl, List.map, List.sum_cons]
    rw [ih (mergeInto acc g), edgeCount_mergeInto]
    omega

theorem gatherGraphs_count (fetch : Fetcher) (addresses : List String) :
    ∀ st : St, ((gatherGraphs fetch addresses st).1.map edgeCount).sum
      ≤ addresses.length := by
  induction addresses with
  | nil => intro st; simp [gatherGraphs]
  | cons a rest ih =>
    intro st
    simp only [gatherGraphs, List.map, List.sum_cons, List.length_cons]
    have h1 := getLatestTransaction_edgeCount fetch a st
    have h2 := ih (getLatestTransaction fetch a st).2
    omega

/-- [C10] The shallow single-hop lookup produces at most one edge per seed
address — keyed by the first returned record's from_address, with the query
flow fixed to inbound (amount filter fixed to 0.5) and no type field on the
edge — and the edge is appended with no local check of its normalized
amount against any minimum (the characterizing equation has no hypothesis
on the amount); consequently the merged shallow graph over a list of seed
addresses has at most as many edges as seeds. -/
theorem c10_shallow_graph :
    (∀ (fetch : Fetcher) (a : String) (st : St),
      edgeCount (getLatestTransaction fetch a st).1 ≤ 1) ∧
    (∀ (fetch : Fetcher) (addresses : List String) (st : St),
      edgeCount (getTransactionGraph fetch addresses st).1 ≤ addresses.length) ∧
    (∀ (fetch : Fetcher) (a : String) (st : St) (tx : SolscanTransaction)
      (rest : List SolscanTransaction),
      fetch (latestQueryParams a) = some ⟨true, tx :: rest⟩ →
      (getLatestTransaction fetch a st).1 =
        [(tx.from_address,
          [⟨tx.to_address, tx.amount / (10 : ℚ) ^ tx.token_decimals,
            tx.block_time, formatLocale tx.block_time, none⟩])]) ∧
    (∀ a : String, (latestQueryParams a).flow = Flow.inflow ∧
      (latestQueryParams a).amount = 1 / 2) := by
  refine ⟨getLatestTransaction_edgeCount, ?_, ?_, ?_⟩
  · intro fetch addresses st
    have h1 := gatherGraphs_count fetch addresses st
    calc edgeCount (getTransactionGraph fetch addresses st).1
        = ((gatherGraphs fetch addresses st).1.map edgeCount).sum := by
          simp [getTransactionGraph, mergeMaps_edgeCount]
      _ ≤ addresses.length := h1
  · intro fetch a st tx rest h
    rw [getLatestTransaction]
    rw [h]
    rfl
  · intro a
    exact ⟨rfl, rfl⟩

/-- Fetcher for the witness of claim C10: seed X receives a transfer of
raw amount 1 with 3 decimals, i.e. normalized amount 1/1000, far below any
minimum, from Z; seed Y gets an empty page. -/
def fetchC10w : Fetcher := fun p =>
  if p = latestQueryParams "X" then some ⟨true, [⟨"Z", "X", 1, 3, 42⟩]⟩
  else some ⟨true, []⟩

/-- Witness for c10_shallow_graph: the tiny transfer is accepted with no
amount check, keyed by Z, with no type field; the two-seed merged graph has
at most two edges. -/
theorem c10_shallow_graph_witness :
    edgeCount (getLatestTransaction fetchC10w "X" initSt).1 ≤ 1 ∧
    edgeCount (getTransactionGraph fetchC10w ["X", "Y"] initSt).1 ≤ 2 ∧
    (getLatestTransaction fetchC10w "X" initSt).1 =
      [("Z", [⟨"X", (1 : ℚ) / (10 : ℚ) ^ (3 : Nat), 42, formatLocale 42, none⟩])] ∧
    (latestQueryParams "X").flow = Flow.inflow :=
  ⟨c10_shallow_graph.1 fetchC10w "X" initSt,
   c10_shallow_graph.2.1 fetchC10w ["X", "Y"] initSt,
   c10_shallow_graph.2.2.1 fetchC10w "X" initSt ⟨"Z", "X", 1, 3, 42⟩ []
     (by with_unfolding_all decide),
   (c10_shallow_graph.2.2.2 "X").1⟩

end WhaleQuery
